import Mathlib

set_option maxHeartbeats 1000000
set_option linter.unusedSectionVars false

/-
Verification of the DFF frame-pairing scheduler
(src/projects/DFF/dff/data/dataset_mapper.py) and the flow color encoder
(src/detectron2/utils/flow_visualizer.py).

The scheduler is modelled as pure functions over explicit state: the two
mutable instance fields key_frame_img / key_frame_seg_id become a TestState
record threaded through calls, assertion failures become Except.error, and
the random offset draw becomes the finite set of outcomes Python's
random.randint can return.  Images are an abstract type parameter; the
external read_image collaborator is a function parameter.
-/

namespace DFF

/-- Set of possible outcomes of Python random.randint(a, b): every integer in
the inclusive range a..b (empty when a > b, where Python raises). -/
def randint (a b : ℤ) : Finset ℤ := Finset.Icc a b

/-- Possible offsets drawn at dataset_mapper.py line 145:
offset = random.randint(self.frame_offset_min, self.frame_offset_max + 1). -/
def drawnOffsets (frame_offset_min frame_offset_max : ℤ) : Finset ℤ :=
  randint frame_offset_min (frame_offset_max + 1)

/-- ref_id computation, dataset_mapper.py lines 146-149:
ref_id = min(max(frame_seg_id + offset, 0), frame_seg_len - 1). -/
def ref_id (frame_seg_id offset frame_seg_len : ℤ) : ℤ :=
  min (max (frame_seg_id + offset) 0) (frame_seg_len - 1)

/-- Training-mode pairing, dataset_mapper.py lines 138-151.  readRef models
reading the reference frame file resolved by formatting the sequence pattern
with ref_id against the dataset image root (lines 150-151); image_cur is the
already decoded current frame.  Returns (image_cur, image_ref).  A record
without a pattern (DET set) self-pairs with a copy of image_cur (line 142). -/
def trainPair {Img : Type} (readRef : String → ℤ → Img) (image_cur : Img)
    (pattern : Option String) (frame_seg_id offset frame_seg_len : ℤ) :
    Img × Img :=
  match pattern with
  | none => (image_cur, image_cur)
  | some p => (image_cur, readRef p (ref_id frame_seg_id offset frame_seg_len))

/-- The two instance fields set in DFFDatasetMapper.__init__ (lines 90-92)
and used only by the inference branch. -/
structure TestState (Img : Type) where
  key_frame_img : Option Img
  key_frame_seg_id : Option ℤ
deriving DecidableEq, Repr

/-- Inference-mode branch of DFFDatasetMapper.__call__, lines 154-173.
Python exceptions (failed assert at lines 163-168, modulo by zero when
key_frame_duration = 0, comparison with None) are modelled as Except.error;
on success the pair (image_cur, image_ref) and the updated cache state are
returned.  Int.emod agrees with Python's modulo for a positive modulus,
which the configuration guarantees for key_frame_duration. -/
def testCall {Img : Type} (key_frame_duration : ℤ) (st : TestState Img)
    (image_cur : Img) (frame_seg_id frame_seg_len : ℤ) :
    Except String ((Img × Img) × TestState Img) :=
  if key_frame_duration = 0 then
    .error "ZeroDivisionError: integer modulo by zero"
  else if frame_seg_id % key_frame_duration = 0 then
    let st1 : TestState Img := ⟨some image_cur, some frame_seg_id⟩
    let st2 : TestState Img :=
      if frame_seg_id + 1 = frame_seg_len then ⟨none, none⟩ else st1
    .ok ((image_cur, image_cur), st2)
  else
    match st.key_frame_img, st.key_frame_seg_id with
    | none, _ => .error "AssertionError: key_frame_img is None"
    | some _, none => .error "TypeError: key_frame_seg_id is None"
    | some kimg, some kid =>
      if 0 < frame_seg_id - kid ∧ frame_seg_id - kid < key_frame_duration then
        let st2 : TestState Img :=
          if frame_seg_id + 1 = frame_seg_len then ⟨none, none⟩ else st
        .ok ((image_cur, kimg), st2)
      else
        .error "AssertionError: frame_seg_id out of key frame window"

/-- One call of DFFDatasetMapper.__call__ restricted to the pairing logic
(lines 137-173): the training branch never touches the cache fields, the
inference branch is testCall.  The offset argument is the value returned by
the random draw of line 145; callers of the model quantify it over
drawnOffsets. -/
def mapperCall {Img : Type} (key_frame_duration : ℤ) (is_train : Bool)
    (readRef : String → ℤ → Img) (image_cur : Img) (pattern : Option String)
    (offset frame_seg_id frame_seg_len : ℤ) (st : TestState Img) :
    Except String ((Img × Img) × TestState Img) :=
  if is_train then
    .ok (trainPair readRef image_cur pattern frame_seg_id offset frame_seg_len,
         st)
  else
    testCall key_frame_duration st image_cur frame_seg_id frame_seg_len

/-- States of the cache reachable from a fresh mapper instance (lines 90-92
initialize both fields to None) by any sequence of successful calls, in
either mode. -/
inductive Reachable {Img : Type} (key_frame_duration : ℤ) :
    TestState Img → Prop
| init : Reachable key_frame_duration ⟨none, none⟩
| step (st st2 : TestState Img) (is_train : Bool) (readRef : String → ℤ → Img)
    (image_cur : Img) (pattern : Option String)
    (offset frame_seg_id frame_seg_len : ℤ) (pr : Img × Img) :
    Reachable key_frame_duration st →
    mapperCall key_frame_duration is_train readRef image_cur pattern offset
      frame_seg_id frame_seg_len st = .ok (pr, st2) →
    Reachable key_frame_duration st2

/-- Most recent multiple of d at or below i (the id of the key frame that is
cached while frame i is being processed in a well ordered sequence). -/
def keyOf (d i : ℕ) : ℕ := d * (i / d)

/-- Cache contents immediately before frame i is processed in an in-order
inference pass: empty before frame 0, otherwise the key frame of frame i-1. -/
def stBefore {Img : Type} (d : ℕ) (imgs : ℕ → Img) : ℕ → TestState Img
  | 0 => ⟨none, none⟩
  | j + 1 => ⟨some (imgs (keyOf d j)), some ((keyOf d j : ℕ) : ℤ)⟩

/-- Reference image the scheduler should emit for frame i: the frame itself
at key frames, otherwise the most recent key frame. -/
def expectedRef {Img : Type} (d : ℕ) (imgs : ℕ → Img) (i : ℕ) : Img :=
  if i % d = 0 then imgs i else imgs (keyOf d i)

/-- Sequential driver: process frames i, i+1, ..., i+n-1 of a sequence of
total length L (so frame_seg_len = L at every call), starting from cache
state st; collect the image_ref of every frame and the final cache state. -/
def runFrom {Img : Type} (key_frame_duration frame_seg_len : ℤ)
    (imgs : ℕ → Img) :
    TestState Img → ℕ → ℕ → Except String (List Img × TestState Img)
  | st, _, 0 => .ok ([], st)
  | st, i, n + 1 =>
    match testCall key_frame_duration st (imgs i) (i : ℤ) frame_seg_len with
    | .error e => .error e
    | .ok (pr, st2) =>
      match runFrom key_frame_duration frame_seg_len imgs st2 (i + 1) n with
      | .error e => .error e
      | .ok (refs, stF) => .ok (pr.2 :: refs, stF)

/-- Feed a whole sequence of length L in order 0, 1, ..., L-1 to a fresh
mapper in inference mode. -/
def runSeq {Img : Type} (key_frame_duration : ℤ) (imgs : ℕ → Img) (L : ℕ) :
    Except String (List Img × TestState Img) :=
  runFrom key_frame_duration (L : ℤ) imgs ⟨none, none⟩ 0 L

/-- C1 fails on the code: with frame_offset_min = 0 and frame_offset_max = 0
the draw random.randint(0, 0 + 1) at line 145 can also return the offset 1,
which lies outside the inclusive range [frame_offset_min, frame_offset_max]
= [0, 0] that the claim allows as the only possible values. -/
theorem c1_counterexample :
    (1 : ℤ) ∈ drawnOffsets 0 0 ∧ (1 : ℤ) ∉ Finset.Icc (0 : ℤ) 0 := by
  refine ⟨?_, by decide⟩
  simp [drawnOffsets, randint]

/-- C1 amended: in training mode the offset is drawn uniformly from the
inclusive range [frame_offset_min, frame_offset_max + 1] (one wider than the
claim states, because Python random.randint is inclusive at both ends and
the code passes frame_offset_max + 1 as the upper bound); for every drawable
offset and every sequence of length at least 1, the computed
ref_id = clamp(frame_seg_id + offset, 0, frame_seg_len - 1) lies in
[0, frame_seg_len - 1]. -/
theorem c1_offset_range_and_clamp (mn mx off id len : ℤ)
    (hoff : off ∈ drawnOffsets mn mx) (hlen : 1 ≤ len) :
    (mn ≤ off ∧ off ≤ mx + 1) ∧
      0 ≤ ref_id id off len ∧ ref_id id off len ≤ len - 1 := by
  have h := Finset.mem_Icc.mp hoff
  refine ⟨h, ?_, ?_⟩ <;> simp only [ref_id] <;> omega

/-- Witness for c1_offset_range_and_clamp at mn = 0, mx = 0, off = 1,
frame_seg_id = 5, frame_seg_len = 3. -/
theorem c1_witness :
    ((0 : ℤ) ≤ 1 ∧ (1 : ℤ) ≤ 0 + 1) ∧
      0 ≤ ref_id 5 1 3 ∧ ref_id 5 1 3 ≤ 3 - 1 :=
  c1_offset_range_and_clamp 0 0 1 5 3 (by decide) (by decide)

/-- C7: in training mode a record with no pattern self-pairs: image_ref is
(a copy of) image_cur.  The pairing happens before the augmentation pipeline
(lines 177-181), and the source makes the copy explicit with
image_cur.copy() at line 142, so image_ref is value-equal to and independent
of image_cur. -/
theorem c7_no_pattern_self_pairs {Img : Type} (readRef : String → ℤ → Img)
    (image_cur : Img) (frame_seg_id offset frame_seg_len : ℤ) :
    trainPair readRef image_cur none frame_seg_id offset frame_seg_len =
      (image_cur, image_cur) := rfl

/-- C4: an inference-mode call for a non key frame never returns a paired
result when the cache is empty, or uninitialized, or when
frame_seg_id - key_frame_seg_id is not strictly between 0 and
key_frame_duration: it fails with the assertion of lines 163-168. -/
theorem c4_out_of_order_fails {Img : Type} (D : ℤ) (st : TestState Img)
    (image_cur : Img) (frame_seg_id frame_seg_len : ℤ)
    (hk : frame_seg_id % D ≠ 0)
    (hbad : st.key_frame_img = none ∨ st.key_frame_seg_id = none ∨
      ∃ k, st.key_frame_seg_id = some k ∧
        ¬(0 < frame_seg_id - k ∧ frame_seg_id - k < D)) :
    ∃ e, testCall D st image_cur frame_seg_id frame_seg_len =
      Except.error e := by
  rcases st with ⟨ki, ks⟩
  unfold testCall
  by_cases hD : D = 0
  · exact ⟨_, by rw [if_pos hD]⟩
  rw [if_neg hD, if_neg hk]
  rcases ki with _ | kimg
  · exact ⟨_, rfl⟩
  rcases ks with _ | kid
  · exact ⟨_, rfl⟩
  rcases hbad with h | h | ⟨k, hk2, hcond⟩
  · simp at h
  · simp at h
  · simp only [TestState.key_frame_seg_id, Option.some.injEq] at hk2
    subst hk2
    dsimp only
    rw [if_neg hcond]
    exact ⟨_, rfl⟩

/-- Witness for c4_out_of_order_fails: frame 1 with duration 2 on a fresh
(empty) cache fails. -/
theorem c4_witness :
    ∃ e, testCall 2 (⟨none, none⟩ : TestState ℕ) 7 1 5 = Except.error e :=
  c4_out_of_order_fails 2 ⟨none, none⟩ 7 1 5 (by decide) (Or.inl rfl)

/-- Successful inference calls only ever produce the empty cache, the
unchanged cache, or a cache holding the current frame at a frame_seg_id that
is a multiple of key_frame_duration. -/
theorem testCall_state {Img : Type} (D : ℤ) (st : TestState Img) (ic : Img)
    (id len : ℤ) (pr : Img × Img) (st2 : TestState Img)
    (h : testCall D st ic id len = .ok (pr, st2)) :
    st2 = (⟨none, none⟩ : TestState Img) ∨ st2 = st ∨
      (st2 = ⟨some ic, some id⟩ ∧ id % D = 0) := by
  unfold testCall at h
  by_cases hD : D = 0
  · rw [if_pos hD] at h; cases h
  rw [if_neg hD] at h
  by_cases hm : id % D = 0
  · rw [if_pos hm] at h
    simp only at h
    split at h
    · left; cases h; rfl
    · right; right
      refine ⟨?_, hm⟩
      cases h; rfl
  · rw [if_neg hm] at h
    rcases st with ⟨ki, ks⟩
    rcases ki with _ | kimg
    · cases h
    rcases ks with _ | kid
    · cases h
    simp only at h
    split at h
    · split at h
      · left; cases h; rfl
      · right; left; cases h; rfl
    · cases h

/-- C10: cache invariant.  Starting from a fresh mapper instance (both cache
fields None, lines 90-92), after any number of successful calls in either
mode, whenever key_frame_img is non-empty the stored key_frame_seg_id is a
multiple of key_frame_duration; and a training-mode call always returns its
cache state unchanged (the training branch of __call__ never reads nor
writes the cache fields). -/
theorem c10_cache_invariant {Img : Type} (D : ℤ) (st : TestState Img)
    (h : Reachable D st) :
    (∀ im, st.key_frame_img = some im →
      ∃ k, st.key_frame_seg_id = some k ∧ k % D = 0) ∧
    (∀ (readRef : String → ℤ → Img) image_cur pattern offset frame_seg_id
        frame_seg_len pr st2,
      mapperCall D true readRef image_cur pattern offset frame_seg_id
        frame_seg_len st = Except.ok (pr, st2) → st2 = st) := by
  constructor
  · induction h with
    | init => intro im him; cases him
    | step st st2 is_train readRef image_cur pattern offset id len pr hr hcall ih =>
      cases is_train with
      | true =>
        simp only [mapperCall, if_pos, Except.ok.injEq, Prod.mk.injEq] at hcall
        obtain ⟨h1, h2⟩ := hcall
        subst h2
        exact ih
      | false =>
        rw [show mapperCall D false readRef image_cur pattern offset id len st =
            testCall D st image_cur id len from rfl] at hcall
        rcases testCall_state D st image_cur id len pr st2 hcall with
          h0 | h0 | ⟨h0, hm⟩
        · subst h0; intro im him; cases him
        · subst h0; exact ih
        · subst h0
          intro im him
          exact ⟨id, rfl, hm⟩
  · intro readRef image_cur pattern offset id len pr st2 hcall
    rw [show mapperCall D true readRef image_cur pattern offset id len st =
        .ok (trainPair readRef image_cur pattern id offset len, st)
      from rfl] at hcall
    cases hcall
    rfl

/-- Core induction for the sequential-inference claim: starting at frame i
with the cache that an in-order pass leaves before frame i, the remaining
n = L - i frames all succeed, every frame gets the expected reference image,
and the cache ends empty (or untouched when there is nothing left to do). -/
theorem runFrom_spec {Img : Type} (d L : ℕ) (imgs : ℕ → Img) (hd : 0 < d) :
    ∀ n i, i + n = L →
      runFrom (d : ℤ) (L : ℤ) imgs (stBefore d imgs i) i n =
        .ok ((List.range n).map (fun t => expectedRef d imgs (i + t)),
          if n = 0 then stBefore d imgs i else ⟨none, none⟩) := by
  intro n
  induction n with
  | zero =>
    intro i hi
    simp [runFrom]
  | succ n ih =>
    intro i hi
    have hdz : (d : ℤ) ≠ 0 := by exact_mod_cast hd.ne'
    have hq : i / d = i / d := rfl
    have hqr : d * (i / d) + i % d = i := Nat.div_add_mod i d
    have hrlt : i % d < d := Nat.mod_lt i hd
    by_cases hr0 : i % d = 0
    · -- frame i is a key frame
      have hmod : (i : ℤ) % (d : ℤ) = 0 := by
        rw [← Int.natCast_mod]
        exact_mod_cast hr0
      have hhead : expectedRef d imgs (i + 0) = imgs i := by
        simp [expectedRef, hr0]
      simp only [runFrom, testCall, if_neg hdz, if_pos hmod]
      by_cases hn : n = 0
      · subst hn
        have hiL : (i : ℤ) + 1 = (L : ℤ) := by omega
        rw [if_pos hiL]
        simp only [runFrom]
        simp [List.range_succ, expectedRef, hr0]
      · have hiL : ¬((i : ℤ) + 1 = (L : ℤ)) := by omega
        rw [if_neg hiL]
        have hkey : keyOf d i = i := by
          have h1 : d * (i / d) = i := by omega
          simpa [keyOf] using h1
        have hst : (⟨some (imgs i), some ((i : ℕ) : ℤ)⟩ : TestState Img) =
            stBefore d imgs (i + 1) := by
          simp [stBefore, hkey]
        rw [hst, ih (i + 1) (by omega)]
        rw [if_neg hn, if_neg (Nat.succ_ne_zero n)]
        simp only [List.range_succ_eq_map, List.map_cons, List.map_map]
        refine congrArg Except.ok (congrArg₂ Prod.mk ?_ rfl)
        refine congrArg₂ List.cons hhead.symm ?_
        apply List.map_congr_left
        intro t ht
        simp only [Function.comp]
        congr 1
        omega
    · -- frame i is not a key frame: i is positive, cache holds its key frame
      have hmod : ¬((i : ℤ) % (d : ℤ) = 0) := by
        rw [← Int.natCast_mod]
        exact_mod_cast hr0
      obtain ⟨j, rfl⟩ : ∃ j, i = j + 1 := by
        cases i with
        | zero => exact absurd (Nat.zero_mod d) hr0
        | succ j => exact ⟨j, rfl⟩
      have hjd : j / d = (j + 1) / d := by
        have hnd : ¬ d ∣ (j + 1) := by
          rw [Nat.dvd_iff_mod_eq_zero]
          exact hr0
        rw [Nat.succ_div, if_neg hnd, Nat.add_zero]
      have hkey : keyOf d j = keyOf d (j + 1) := by
        simp [keyOf, hjd]
      have hcond : 0 < ((j + 1 : ℕ) : ℤ) - ((keyOf d j : ℕ) : ℤ) ∧
          ((j + 1 : ℕ) : ℤ) - ((keyOf d j : ℕ) : ℤ) < (d : ℤ) := by
        have h1 : keyOf d j = d * ((j + 1) / d) := by simp [keyOf, hjd]
        have h2 : d * ((j + 1) / d) + (j + 1) % d = j + 1 :=
          Nat.div_add_mod (j + 1) d
        constructor <;> push_cast <;> omega
      simp only [runFrom, testCall, stBefore, if_neg hdz, if_neg hmod]
      rw [if_pos hcond]
      have hhead : expectedRef d imgs (j + 1 + 0) = imgs (keyOf d j) := by
        simp [expectedRef, hr0, hkey]
      by_cases hn : n = 0
      · subst hn
        have hiL : ((j + 1 : ℕ) : ℤ) + 1 = (L : ℤ) := by omega
        rw [if_pos hiL]
        simp only [runFrom]
        simp [List.range_succ, expectedRef, hr0, hkey]
      · have hiL : ¬(((j + 1 : ℕ) : ℤ) + 1 = (L : ℤ)) := by omega
        rw [if_neg hiL]
        have hst : (⟨some (imgs (keyOf d j)), some ((keyOf d j : ℕ) : ℤ)⟩ :
            TestState Img) = stBefore d imgs (j + 1 + 1) := by
          simp [stBefore, hkey]
        rw [hst]
        dsimp only
        rw [ih (j + 1 + 1) (by omega)]
        rw [if_neg hn, if_neg (Nat.succ_ne_zero n)]
        simp only [List.range_succ_eq_map, List.map_cons, List.map_map]
        refine congrArg Except.ok (congrArg₂ Prod.mk ?_ rfl)
        refine congrArg₂ List.cons hhead.symm ?_
        apply List.map_congr_left
        intro t ht
        simp only [Function.comp]
        congr 1
        omega

/-- C3: feeding frame_seg_id = 0, 1, ..., L-1 in order with
key_frame_duration = d to a fresh inference-mode mapper succeeds at every
frame; image_ref is image_cur exactly at the multiples of d (where the key
branch of lines 158-161 copies image_cur) and the image cached at the most
recent multiple of d everywhere else; after the call for frame L-1 both
cache fields are None again. -/
theorem c3_sequential_inference {Img : Type} (d L : ℕ) (imgs : ℕ → Img)
    (hd : 0 < d) (hL : 0 < L) :
    runSeq (d : ℤ) imgs L =
      .ok ((List.range L).map (fun i => expectedRef d imgs i),
        ⟨none, none⟩) := by
  have h := runFrom_spec d L imgs hd L 0 (by omega)
  rw [if_neg hL.ne'] at h
  simpa [runSeq, stBefore] using h

/-- Witness for c3_sequential_inference: d = 2, L = 3, frames 0, 1, 2. -/
theorem c3_witness :
    runSeq (2 : ℤ) (fun i : ℕ => i) 3 =
      .ok ((List.range 3).map (fun i => expectedRef 2 (fun i : ℕ => i) i),
        ⟨none, none⟩) :=
  c3_sequential_inference 2 3 (fun i : ℕ => i) (by decide) (by decide)

/-- Witness for c10_cache_invariant at the initial (reachable) state. -/
theorem c10_witness :
    (∀ im, (⟨none, none⟩ : TestState ℕ).key_frame_img = some im →
      ∃ k, (⟨none, none⟩ : TestState ℕ).key_frame_seg_id = some k ∧
        k % 3 = 0) ∧
    (∀ (readRef : String → ℤ → ℕ) image_cur pattern offset frame_seg_id
        frame_seg_len pr st2,
      mapperCall 3 true readRef image_cur pattern offset frame_seg_id
        frame_seg_len (⟨none, none⟩ : TestState ℕ) = Except.ok (pr, st2) →
      st2 = ⟨none, none⟩) :=
  c10_cache_invariant 3 ⟨none, none⟩ Reachable.init

end DFF

/-
Flow color encoder (src/detectron2/utils/flow_visualizer.py).

A flow field is a list of rows of (u, v) pairs over a linear ordered field α
(IEEE doubles are modelled by exact real arithmetic; α stays generic so the
algorithm definitions remain executable, and the claims are stated at
α = ℝ).  The float functions sqrt, arctan2 and the constant pi have no
counterpart in a general field, so they are passed in one FloatOps record;
the claims instantiate it with Real.sqrt, Complex.arg and Real.pi, which
agree with the IEEE functions on finite inputs except for the signed-zero
distinctions of arctan2, which none of the claims depend on.  The single
IEEE special value the algorithm genuinely produces, NaN from the division
0/0 when maxrad = 0, is modelled by Option: none is NaN.  The division
x/0 = plus or minus infinity for x that is nonzero never occurs in flow2img
(see maxrad_eq_zero_imp below: maxrad = 0 forces every masked entry to be
zero), so fdiv maps that unreachable case to none as well.
-/

namespace FlowVis

/-- Bundle of the floating-point functions flow_visualizer.py takes from
numpy: sqrt, arctan2 (in numpy argument order: y first, then x) and pi. -/
structure FloatOps (α : Type) where
  sqrtF : α → α
  atan2F : α → α → α
  piC : α

/-- The intended instantiation over the reals: np.sqrt is Real.sqrt,
np.arctan2 y x is the argument of the complex number x + y i, np.pi is pi. -/
noncomputable def realOps : FloatOps ℝ :=
  ⟨Real.sqrt, fun y x => Complex.arg ⟨x, y⟩, Real.pi⟩

/-- Properties of the numpy functions that the encoder proofs use: sqrt is
nonnegative, arctan2 lands in (-pi, pi], and pi is positive. -/
def OpsSpec {α : Type} [LinearOrderedField α] (ops : FloatOps α) : Prop :=
  (∀ x, 0 ≤ ops.sqrtF x) ∧
  (∀ y x, -ops.piC < ops.atan2F y x ∧ ops.atan2F y x ≤ ops.piC) ∧
  0 < ops.piC

theorem realOps_spec : OpsSpec realOps :=
  ⟨Real.sqrt_nonneg,
   fun _ _ => ⟨Complex.neg_pi_lt_arg _, Complex.arg_le_pi _⟩,
   Real.pi_pos⟩

section Generic

variable {α : Type} [LinearOrderedField α] [FloorRing α]

/-- Segment sizes of make_color_wheel, lines 22-27. -/
def RY : ℕ := 15

def YG : ℕ := 6

def GC : ℕ := 4

def CB : ℕ := 11

def BM : ℕ := 13

def MR : ℕ := 6

/-- ncols = RY + YG + GC + CB + BM + MR = 55, line 29. -/
def ncols : ℕ := RY + YG + GC + CB + BM + MR

/-- make_color_wheel, lines 17-64: six color ramps whose varying channel is
floor(255 * k / segment); rows are (channel 0, channel 1, channel 2). -/
def make_color_wheel : List (α × α × α) :=
  ((List.range RY).map fun k : ℕ =>
    ((255 : α), ((⌊(255 * (k : α)) / (RY : α)⌋ : ℤ) : α), 0)) ++
  ((List.range YG).map fun k : ℕ =>
    (255 - ((⌊(255 * (k : α)) / (YG : α)⌋ : ℤ) : α), (255 : α), 0)) ++
  ((List.range GC).map fun k : ℕ =>
    ((0 : α), 255, ((⌊(255 * (k : α)) / (GC : α)⌋ : ℤ) : α))) ++
  ((List.range CB).map fun k : ℕ =>
    ((0 : α), 255 - ((⌊(255 * (k : α)) / (CB : α)⌋ : ℤ) : α), 255)) ++
  ((List.range BM).map fun k : ℕ =>
    (((⌊(255 * (k : α)) / (BM : α)⌋ : ℤ) : α), 0, 255)) ++
  ((List.range MR).map fun k : ℕ =>
    ((255 : α), 0, 255 - ((⌊(255 * (k : α)) / (MR : α)⌋ : ℤ) : α)))

/-- Angle of one pixel, line 86: a = arctan2(-v, -u) / pi. -/
def a_of (ops : FloatOps α) (u v : α) : α :=
  ops.atan2F (-v) (-u) / ops.piC

/-- Fractional wheel index, line 88: fk = (a + 1) / 2 * (ncols - 1) + 1. -/
def fk_of (ops : FloatOps α) (u v : α) : α :=
  (a_of ops u v + 1) / 2 * ((ncols : α) - 1) + 1

/-- Lower wheel index, line 90: k0 = floor(fk). -/
def k0_of (ops : FloatOps α) (u v : α) : ℤ :=
  ⌊fk_of ops u v⌋

/-- Upper wheel index, lines 92-93: k1 = k0 + 1, wrapped to 1 when it equals
ncols + 1. -/
def k1_of (ops : FloatOps α) (u v : α) : ℤ :=
  if k0_of ops u v + 1 = (ncols : ℤ) + 1 then 1 else k0_of ops u v + 1

/-- Blend fraction, line 94: f = fk - k0. -/
def f_of (ops : FloatOps α) (u v : α) : α :=
  fk_of ops u v - ((k0_of ops u v : ℤ) : α)

/-- One channel of one pixel, lines 96-107: interpolate the two wheel
entries, blend toward white when rad is at most 1 and darken by 0.75
otherwise, then floor(255 * col * (1 - NAN_idx)).  c0 and c1 are the wheel
entries at k0 - 1 and k1 - 1 for this channel. -/
def chan (rad f : α) (nanflag : Bool) (c0 c1 : α) : ℤ :=
  let col0 := c0 / 255
  let col1 := c1 / 255
  let col := (1 - f) * col0 + f * col1
  let col2 := if rad ≤ 1 then 1 - rad * (1 - col) else col * (3 / 4)
  ⌊255 * col2 * (if nanflag then 0 else 1)⌋

/-- compute_color on one pixel, lines 67-109.  The NaN handling of lines
78-79 (entries where u or v is NaN are zeroed and remembered in NAN_idx,
which zeroes the final output) acts on the Option layer. -/
def compute_color_pixel (ops : FloatOps α) (uv : Option α × Option α) :
    ℤ × ℤ × ℤ :=
  let nanflag := uv.1.isNone || uv.2.isNone
  let u := if nanflag then 0 else uv.1.getD 0
  let v := if nanflag then 0 else uv.2.getD 0
  let rad := ops.sqrtF (u ^ 2 + v ^ 2)
  let f := f_of ops u v
  let e0 := (make_color_wheel (α := α)).getD (k0_of ops u v - 1).toNat (0, 0, 0)
  let e1 := (make_color_wheel (α := α)).getD (k1_of ops u v - 1).toNat (0, 0, 0)
  (chan rad f nanflag e0.1 e1.1,
   chan rad f nanflag e0.2.1 e1.2.1,
   chan rad f nanflag e0.2.2 e1.2.2)

/-- compute_color over whole arrays.  The source passes two arrays u and v
of the same shape and combines them elementwise; the model keeps the two
channels paired per pixel. -/
def compute_color (ops : FloatOps α)
    (uv : List (List (Option α × Option α))) :
    List (List (ℤ × ℤ × ℤ)) :=
  uv.map fun row => row.map fun p => compute_color_pixel ops p

/-- Unknown-flow sentinel, line 123: UNKNOW_FLOW_THRESHOLD = 1e7. -/
def UNKNOW_FLOW_THRESHOLD : α := 10 ^ 7

/-- Unknown-flow test of lines 124-126: abs(u) > 1e7 or abs(v) > 1e7. -/
def idx_unknown (p : α × α) : Prop :=
  |p.1| > UNKNOW_FLOW_THRESHOLD ∨ |p.2| > UNKNOW_FLOW_THRESHOLD

instance (p : α × α) : Decidable (idx_unknown p) := by
  unfold idx_unknown
  infer_instance

/-- Line 127: u[idx_unknown] = v[idx_unknown] = 0, applied to the flow
field.  Because u and v are numpy views of the caller's array, this is also
the state of the caller's flow_data after flow2img returns. -/
def mask_unknown (flow : List (List (α × α))) : List (List (α × α)) :=
  flow.map fun row => row.map fun p =>
    if idx_unknown p then ((0 : α), (0 : α)) else p

/-- State of the caller's flow_data array after flow2img returns: the
in-place zeroing of line 127 is the only mutation flow2img performs on it
(the later rebinding u = u / maxrad + eps at lines 141-142 creates fresh
arrays). -/
def flow_data_after (flow : List (List (α × α))) : List (List (α × α)) :=
  mask_unknown flow

/-- Radius of one (already masked) pixel, line 139: sqrt(u^2 + v^2). -/
def rad_pixel (ops : FloatOps α) (p : α × α) : α :=
  ops.sqrtF (p.1 ^ 2 + p.2 ^ 2)

/-- Line 140: maxrad = max(-1, np.max(rad)).  Folding max with seed -1 over
all radii equals that for every nonempty field; np.max raises on an empty
array, so callers of the model assume a nonempty field where it matters. -/
def maxrad (ops : FloatOps α) (flow : List (List (α × α))) : α :=
  (((mask_unknown flow).map fun row => row.map (rad_pixel ops)).flatten).foldr
    max (-1)

/-- IEEE division as exercised by lines 141-142.  The divisor is maxrad;
when it is 0 every masked numerator is 0 as well (maxrad_eq_zero_imp), so
0/0 = NaN (none) is the only special case reachable; the unreachable
x/0 with x nonzero is mapped to none too. -/
def fdiv (x d : α) : Option α := if d = 0 then none else some (x / d)

/-- Machine epsilon added at lines 141-142: np.finfo(float).eps = 2 ^ (-52).
Adding it to NaN keeps NaN. -/
def eps : α := 1 / 2 ^ 52

/-- Lines 141-142: u = u / maxrad + eps and v = v / maxrad + eps over the
masked field. -/
def normalize (ops : FloatOps α) (flow : List (List (α × α))) :
    List (List (Option α × Option α)) :=
  (mask_unknown flow).map fun row => row.map fun p =>
    ((fdiv p.1 (maxrad ops flow)).map (· + eps),
     (fdiv p.2 (maxrad ops flow)).map (· + eps))

/-- flow2img, lines 112-149: mask unknown entries, normalize by maxrad, run
compute_color, then zero the output at the unknown positions (lines
146-147).  Every produced channel already lies in [0, 255] (see the C9
theorem), so the final np.uint8 casts of lines 107 and 149 are the
identity and the entries are kept as integers. -/
def flow2img (ops : FloatOps α) (flow : List (List (α × α))) :
    List (List (ℤ × ℤ × ℤ)) :=
  let img := compute_color ops (normalize ops flow)
  (img.zip flow).map fun rw => (rw.1.zip rw.2).map fun pq =>
    if idx_unknown pq.2 then ((0 : ℤ), (0 : ℤ), (0 : ℤ)) else pq.1

/-- All-zero flow field of height h and width w. -/
def zeroFlow (h w : ℕ) : List (List (α × α)) :=
  List.replicate h (List.replicate w (0, 0))

end Generic

section GenericProofs

variable {α : Type} [LinearOrderedField α] [FloorRing α] {ops : FloatOps α}

theorem make_color_wheel_length :
    (make_color_wheel (α := α)).length = ncols := rfl

theorem floor_ratio_bounds (k n : ℕ) (hk : k < n) :
    (0 : α) ≤ ((⌊(255 * (k : α)) / (n : α)⌋ : ℤ) : α) ∧
      ((⌊(255 * (k : α)) / (n : α)⌋ : ℤ) : α) ≤ 255 := by
  have hn : (0 : α) < (n : α) := by
    have h : 0 < n := by omega
    exact_mod_cast h
  have hx0 : (0 : α) ≤ 255 * (k : α) / (n : α) := by positivity
  have hkn : (k : α) ≤ (n : α) := by exact_mod_cast hk.le
  have hx1 : 255 * (k : α) / (n : α) ≤ 255 := by
    rw [div_le_iff₀ hn]
    nlinarith
  constructor
  · have h0 : (0 : ℤ) ≤ ⌊255 * (k : α) / (n : α)⌋ :=
      Int.le_floor.mpr (by exact_mod_cast hx0)
    exact_mod_cast h0
  · exact le_trans (Int.floor_le _) hx1

theorem wheel_bounds :
    ∀ e ∈ make_color_wheel (α := α),
      (0 ≤ e.1 ∧ e.1 ≤ 255) ∧ (0 ≤ e.2.1 ∧ e.2.1 ≤ 255) ∧
        (0 ≤ e.2.2 ∧ e.2.2 ≤ 255) := by
  intro e he
  unfold make_color_wheel at he
  rcases List.mem_append.mp he with h5 | h
  rotate_left
  · obtain ⟨k, hk, rfl⟩ := List.mem_map.mp h
    rw [List.mem_range] at hk
    obtain ⟨h0, h1⟩ := floor_ratio_bounds (α := α) k MR hk
    exact ⟨⟨by norm_num, by norm_num⟩, ⟨by norm_num, by norm_num⟩,
      by simp only; linarith, by simp only; linarith⟩
  rcases List.mem_append.mp h5 with h4 | h
  rotate_left
  · obtain ⟨k, hk, rfl⟩ := List.mem_map.mp h
    rw [List.mem_range] at hk
    obtain ⟨h0, h1⟩ := floor_ratio_bounds (α := α) k BM hk
    exact ⟨⟨h0, h1⟩, ⟨by norm_num, by norm_num⟩, by norm_num, by norm_num⟩
  rcases List.mem_append.mp h4 with h3 | h
  rotate_left
  · obtain ⟨k, hk, rfl⟩ := List.mem_map.mp h
    rw [List.mem_range] at hk
    obtain ⟨h0, h1⟩ := floor_ratio_bounds (α := α) k CB hk
    exact ⟨⟨by norm_num, by norm_num⟩,
      ⟨by simp only; linarith, by simp only; linarith⟩,
      by norm_num, by norm_num⟩
  rcases List.mem_append.mp h3 with h2 | h
  rotate_left
  · obtain ⟨k, hk, rfl⟩ := List.mem_map.mp h
    rw [List.mem_range] at hk
    obtain ⟨h0, h1⟩ := floor_ratio_bounds (α := α) k GC hk
    exact ⟨⟨by norm_num, by norm_num⟩, ⟨by norm_num, by norm_num⟩, h0, h1⟩
  rcases List.mem_append.mp h2 with h1s | h
  rotate_left
  · obtain ⟨k, hk, rfl⟩ := List.mem_map.mp h
    rw [List.mem_range] at hk
    obtain ⟨h0, h1⟩ := floor_ratio_bounds (α := α) k YG hk
    exact ⟨⟨by simp only; linarith, by simp only; linarith⟩,
      ⟨by norm_num, by norm_num⟩, by norm_num, by norm_num⟩
  · obtain ⟨k, hk, rfl⟩ := List.mem_map.mp h1s
    rw [List.mem_range] at hk
    obtain ⟨h0, h1⟩ := floor_ratio_bounds (α := α) k RY hk
    exact ⟨⟨by norm_num, by norm_num⟩, ⟨h0, h1⟩, by norm_num, by norm_num⟩

theorem a_of_mem (h : OpsSpec ops) (u v : α) :
    -1 < a_of ops u v ∧ a_of ops u v ≤ 1 := by
  obtain ⟨hs, ha, hp⟩ := h
  obtain ⟨h1, h2⟩ := ha (-v) (-u)
  unfold a_of
  constructor
  · rw [lt_div_iff₀ hp]
    linarith
  · rw [div_le_one hp]
    exact h2

theorem ncols_cast : ((ncols : ℕ) : α) = 55 := by
  norm_num [ncols, RY, YG, GC, CB, BM, MR]

theorem fk_of_mem (h : OpsSpec ops) (u v : α) :
    1 < fk_of ops u v ∧ fk_of ops u v ≤ 55 := by
  obtain ⟨h1, h2⟩ := a_of_mem h u v
  have hr : fk_of ops u v = 27 * a_of ops u v + 28 := by
    unfold fk_of
    rw [ncols_cast]
    ring
  rw [hr]
  constructor <;> linarith

theorem k0_of_mem (h : OpsSpec ops) (u v : α) :
    1 ≤ k0_of ops u v ∧ k0_of ops u v ≤ 55 := by
  obtain ⟨hf1, hf2⟩ := fk_of_mem h u v
  unfold k0_of
  constructor
  · exact Int.le_floor.mpr (by exact_mod_cast hf1.le)
  · have hle : ((⌊fk_of ops u v⌋ : ℤ) : α) ≤ 55 :=
      le_trans (Int.floor_le _) hf2
    exact_mod_cast hle

theorem k1_of_mem (h : OpsSpec ops) (u v : α) :
    1 ≤ k1_of ops u v ∧ k1_of ops u v ≤ 55 := by
  obtain ⟨h1, h2⟩ := k0_of_mem h u v
  unfold k1_of
  have hn : ((ncols : ℕ) : ℤ) = 55 := by norm_num [ncols, RY, YG, GC, CB, BM, MR]
  rw [hn]
  by_cases hc : k0_of ops u v + 1 = 55 + 1
  · rw [if_pos hc]
    omega
  · rw [if_neg hc]
    omega

theorem f_of_mem (ops : FloatOps α) (u v : α) :
    0 ≤ f_of ops u v ∧ f_of ops u v < 1 := by
  have h0 := Int.fract_nonneg (fk_of ops u v)
  have h1 := Int.fract_lt_one (fk_of ops u v)
  rw [Int.fract] at h0 h1
  exact ⟨h0, h1⟩

theorem chan_mem (rad f : α) (nanflag : Bool) (c0 c1 : α)
    (hrad : 0 ≤ rad) (hf0 : 0 ≤ f) (hf1 : f < 1)
    (hc00 : 0 ≤ c0) (hc01 : c0 ≤ 255) (hc10 : 0 ≤ c1) (hc11 : c1 ≤ 255) :
    0 ≤ chan rad f nanflag c0 c1 ∧ chan rad f nanflag c0 c1 ≤ 255 := by
  simp only [chan]
  set col : α := (1 - f) * (c0 / 255) + f * (c1 / 255) with hcol
  have hd00 : (0 : α) ≤ c0 / 255 := by positivity
  have hd01 : c0 / 255 ≤ 1 := by
    rw [div_le_one (by norm_num : (0 : α) < 255)]
    exact hc01
  have hd10 : (0 : α) ≤ c1 / 255 := by positivity
  have hd11 : c1 / 255 ≤ 1 := by
    rw [div_le_one (by norm_num : (0 : α) < 255)]
    exact hc11
  have hcol0 : 0 ≤ col := by
    rw [hcol]
    have ha : 0 ≤ (1 - f) * (c0 / 255) := mul_nonneg (by linarith) hd00
    have hb : 0 ≤ f * (c1 / 255) := mul_nonneg hf0 hd10
    linarith
  have hcol1 : col ≤ 1 := by
    rw [hcol]
    have ha : (1 - f) * (c0 / 255) ≤ (1 - f) * 1 :=
      mul_le_mul_of_nonneg_left hd01 (by linarith)
    have hb : f * (c1 / 255) ≤ f * 1 := mul_le_mul_of_nonneg_left hd11 hf0
    linarith
  set col2 : α := if rad ≤ 1 then 1 - rad * (1 - col) else col * (3 / 4)
    with hcol2
  have hc2 : 0 ≤ col2 ∧ col2 ≤ 1 := by
    rw [hcol2]
    split
    · rename_i hr1
      constructor <;> nlinarith
    · rename_i hr1
      constructor <;> nlinarith
  have hval : 0 ≤ 255 * col2 * (if nanflag then (0 : α) else 1) ∧
      255 * col2 * (if nanflag then (0 : α) else 1) ≤ 255 := by
    cases nanflag with
    | true => simp
    | false =>
      simp only [if_neg Bool.false_ne_true, mul_one]
      constructor <;> nlinarith [hc2.1, hc2.2]
  constructor
  · exact Int.le_floor.mpr (by exact_mod_cast hval.1)
  · have hle : ((⌊255 * col2 * (if nanflag then (0 : α) else 1)⌋ : ℤ) : α) ≤
        255 := le_trans (Int.floor_le _) hval.2
    exact_mod_cast hle

theorem wheel_getD_mem_bounds (i : ℕ) (hi : i < ncols) :
    (0 ≤ ((make_color_wheel (α := α)).getD i (0, 0, 0)).1 ∧
      ((make_color_wheel (α := α)).getD i (0, 0, 0)).1 ≤ 255) ∧
    (0 ≤ ((make_color_wheel (α := α)).getD i (0, 0, 0)).2.1 ∧
      ((make_color_wheel (α := α)).getD i (0, 0, 0)).2.1 ≤ 255) ∧
    (0 ≤ ((make_color_wheel (α := α)).getD i (0, 0, 0)).2.2 ∧
      ((make_color_wheel (α := α)).getD i (0, 0, 0)).2.2 ≤ 255) := by
  have hlen : i < (make_color_wheel (α := α)).length := by
    rw [make_color_wheel_length]
    exact hi
  have hmem : (make_color_wheel (α := α)).getD i (0, 0, 0) ∈
      make_color_wheel (α := α) := by
    rw [List.getD_eq_getElem _ _ hlen]
    exact List.getElem_mem hlen
  exact wheel_bounds _ hmem

theorem compute_color_pixel_mem (h : OpsSpec ops) (uv : Option α × Option α) :
    (0 ≤ (compute_color_pixel ops uv).1 ∧
      (compute_color_pixel ops uv).1 ≤ 255) ∧
    (0 ≤ (compute_color_pixel ops uv).2.1 ∧
      (compute_color_pixel ops uv).2.1 ≤ 255) ∧
    (0 ≤ (compute_color_pixel ops uv).2.2 ∧
      (compute_color_pixel ops uv).2.2 ≤ 255) := by
  obtain ⟨hs, ha, hp⟩ := h
  have hspec : OpsSpec ops := ⟨hs, ha, hp⟩
  unfold compute_color_pixel
  dsimp only
  set u := if (uv.1.isNone || uv.2.isNone) then (0 : α) else uv.1.getD 0
    with hu
  set v := if (uv.1.isNone || uv.2.isNone) then (0 : α) else uv.2.getD 0
    with hv
  have hk0 := k0_of_mem hspec u v
  have hk1 := k1_of_mem hspec u v
  have hf := f_of_mem ops u v
  have hn55 : ncols = 55 := rfl
  have hi0 : (k0_of ops u v - 1).toNat < ncols := by omega
  have hi1 : (k1_of ops u v - 1).toNat < ncols := by omega
  have he0 := wheel_getD_mem_bounds (α := α) _ hi0
  have he1 := wheel_getD_mem_bounds (α := α) _ hi1
  have hrad : 0 ≤ ops.sqrtF (u ^ 2 + v ^ 2) := hs _
  exact ⟨chan_mem _ _ _ _ _ hrad hf.1 hf.2 he0.1.1 he0.1.2 he1.1.1 he1.1.2,
    chan_mem _ _ _ _ _ hrad hf.1 hf.2 he0.2.1.1 he0.2.1.2 he1.2.1.1
      he1.2.1.2,
    chan_mem _ _ _ _ _ hrad hf.1 hf.2 he0.2.2.1 he0.2.2.2 he1.2.2.1
      he1.2.2.2⟩

theorem le_foldr_max {l : List α} {x : α} (b : α) (hx : x ∈ l) :
    x ≤ l.foldr max b := by
  induction l with
  | nil => cases hx
  | cons a t ih =>
    rcases List.mem_cons.mp hx with rfl | h
    · exact le_max_left _ _
    · exact le_trans (ih h) (le_max_right _ _)

theorem foldr_max_le {c b : α} (hb : b ≤ c) :
    ∀ l : List α, (∀ x ∈ l, x ≤ c) → l.foldr max b ≤ c := by
  intro l
  induction l with
  | nil => intro _; exact hb
  | cons a t ih =>
    intro hub
    exact max_le (hub a (by simp))
      (ih fun x hx => hub x (List.mem_cons_of_mem _ hx))

theorem foldr_max_eq {c b : α} (hb : b ≤ c) :
    ∀ l : List α, c ∈ l → (∀ x ∈ l, x ≤ c) → l.foldr max b = c := by
  intro l
  induction l with
  | nil => intro hc; cases hc
  | cons a t ih =>
    intro hc hub
    rw [List.foldr_cons]
    rcases List.mem_cons.mp hc with rfl | hct
    · exact max_eq_left (foldr_max_le hb t
        fun x hx => hub x (List.mem_cons_of_mem _ hx))
    · rw [ih hct fun x hx => hub x (List.mem_cons_of_mem _ hx)]
      exact max_eq_right (hub a (by simp))

/-- Per-pixel form of flow2img: the unknown-mask decides the pixel, and
every other pixel is compute_color applied to the entry divided by the
global maxrad (plus machine epsilon). -/
def pixel_of (ops : FloatOps α) (m : α) (p : α × α) : ℤ × ℤ × ℤ :=
  if idx_unknown p then ((0 : ℤ), (0 : ℤ), (0 : ℤ))
  else compute_color_pixel ops
    ((fdiv p.1 m).map (· + eps), (fdiv p.2 m).map (· + eps))

theorem zip_self_map {β γ δ : Type} (f : β → γ) (g : γ × β → δ)
    (l : List β) :
    ((l.map f).zip l).map g = l.map fun x => g (f x, x) := by
  induction l with
  | nil => rfl
  | cons a t ih => simp [ih]

theorem flow2img_eq (ops : FloatOps α) (flow : List (List (α × α))) :
    flow2img ops flow =
      flow.map fun row => row.map (pixel_of ops (maxrad ops flow)) := by
  simp only [flow2img, compute_color, normalize, mask_unknown,
    List.map_map]
  rw [zip_self_map]
  simp only [Function.comp, List.map_map]
  simp only [zip_self_map]
  congr 1
  funext row
  congr 1
  funext p
  by_cases hp : idx_unknown p
  · simp [hp, pixel_of]
  · simp [hp, pixel_of]

end GenericProofs

section RealTheorems

/-- C8: the color wheel has exactly 55 = 15 + 6 + 4 + 11 + 13 + 6 rows, and
for every pixel value pair (u, v) the computed indices satisfy
k0 = floor(fk) in [1, ncols] and k1 (k0 + 1 wrapped to 1 past ncols) in
[1, ncols], so both row lookups wheel[k0 - 1] and wheel[k1 - 1] are within
the 55-entry table. -/
theorem c8_wheel_indices_in_bounds :
    (FlowVis.make_color_wheel (α := ℝ)).length = 55 ∧
    FlowVis.ncols = 15 + 6 + 4 + 11 + 13 + 6 ∧
    ∀ u v : ℝ,
      (1 ≤ FlowVis.k0_of FlowVis.realOps u v ∧
        FlowVis.k0_of FlowVis.realOps u v ≤ (FlowVis.ncols : ℤ)) ∧
      (1 ≤ FlowVis.k1_of FlowVis.realOps u v ∧
        FlowVis.k1_of FlowVis.realOps u v ≤ (FlowVis.ncols : ℤ)) ∧
      (FlowVis.k0_of FlowVis.realOps u v - 1).toNat <
        (FlowVis.make_color_wheel (α := ℝ)).length ∧
      (FlowVis.k1_of FlowVis.realOps u v - 1).toNat <
        (FlowVis.make_color_wheel (α := ℝ)).length := by
  refine ⟨rfl, rfl, fun u v => ?_⟩
  have h0 := FlowVis.k0_of_mem FlowVis.realOps_spec u v
  have h1 := FlowVis.k1_of_mem FlowVis.realOps_spec u v
  have hn : (FlowVis.ncols : ℤ) = 55 := rfl
  have hl : (FlowVis.make_color_wheel (α := ℝ)).length = 55 := rfl
  refine ⟨⟨h0.1, by omega⟩, ⟨h1.1, by omega⟩, by omega, by omega⟩

/-- C9: for every flow field, the encoded image has the same height, the
same per-row widths, exactly three channels per pixel (the codomain is a
triple), and every channel value is an integer in [0, 255] before the final
uint8 cast, which is therefore the identity. -/
theorem c9_output_shape_and_range (flow : List (List (ℝ × ℝ))) :
    (FlowVis.flow2img FlowVis.realOps flow).length = flow.length ∧
    (∀ i : ℕ, ((FlowVis.flow2img FlowVis.realOps flow).getD i []).length =
      (flow.getD i []).length) ∧
    (∀ row ∈ FlowVis.flow2img FlowVis.realOps flow, ∀ px ∈ row,
      (0 ≤ px.1 ∧ px.1 ≤ 255) ∧ (0 ≤ px.2.1 ∧ px.2.1 ≤ 255) ∧
        (0 ≤ px.2.2 ∧ px.2.2 ≤ 255)) := by
  rw [FlowVis.flow2img_eq]
  refine ⟨by simp, fun i => ?_, fun row hrow px hpx => ?_⟩
  · by_cases hi : i < flow.length
    · rw [List.getD_eq_getElem _ _ (by simpa using hi),
        List.getD_eq_getElem _ _ hi, List.getElem_map]
      simp
    · rw [List.getD_eq_default _ _ (by simpa using not_lt.mp hi),
        List.getD_eq_default _ _ (not_lt.mp hi)]
      rfl
  · rcases List.mem_map.mp hrow with ⟨row0, hrow0, rfl⟩
    rcases List.mem_map.mp hpx with ⟨p, hp, rfl⟩
    unfold FlowVis.pixel_of
    by_cases hu : FlowVis.idx_unknown p
    · rw [if_pos hu]
      norm_num
    · rw [if_neg hu]
      exact FlowVis.compute_color_pixel_mem FlowVis.realOps_spec _

end RealTheorems

section MoreGeneric

variable {α : Type} [LinearOrderedField α] [FloorRing α]

theorem chan_nan (rad f c0 c1 : α) : chan rad f true c0 c1 = 0 := by
  simp [chan]

theorem compute_color_pixel_nan (ops : FloatOps α) :
    compute_color_pixel ops (none, none) = (0, 0, 0) := by
  simp [compute_color_pixel, chan_nan]

theorem idx_unknown_zero : ¬ idx_unknown ((0 : α), (0 : α)) := by
  unfold idx_unknown UNKNOW_FLOW_THRESHOLD
  push_neg
  constructor <;> · rw [abs_zero]; norm_num

theorem mask_unknown_zeroFlow (h w : ℕ) :
    mask_unknown (zeroFlow (α := α) h w) = zeroFlow h w := by
  unfold mask_unknown zeroFlow
  simp [List.map_replicate]

theorem mask_row_id : ∀ row : List (α × α), (∀ p ∈ row, ¬ idx_unknown p) →
    (row.map fun p => if idx_unknown p then ((0 : α), (0 : α)) else p) =
      row := by
  intro row
  induction row with
  | nil => intro _; rfl
  | cons p t ih =>
    intro hrow
    rw [List.map_cons, if_neg (hrow p (by simp)),
      ih fun q hq => hrow q (List.mem_cons_of_mem _ hq)]

theorem mask_unknown_id : ∀ flow : List (List (α × α)),
    (∀ row ∈ flow, ∀ p ∈ row, ¬ idx_unknown p) →
      mask_unknown flow = flow := by
  intro flow
  induction flow with
  | nil => intro _; rfl
  | cons row rest ih =>
    intro hflow
    unfold mask_unknown
    rw [List.map_cons, mask_row_id row (hflow row (by simp))]
    have hrest := ih fun r hr p hp =>
      hflow r (List.mem_cons_of_mem _ hr) p hp
    unfold mask_unknown at hrest
    rw [hrest]

end MoreGeneric

section RealHelpers

theorem rad_pixel_zero :
    rad_pixel (α := ℝ) realOps ((0 : ℝ), (0 : ℝ)) = 0 := by
  show Real.sqrt ((0 : ℝ) ^ 2 + (0 : ℝ) ^ 2) = 0
  rw [show ((0 : ℝ) ^ 2 + (0 : ℝ) ^ 2) = 0 by norm_num, Real.sqrt_zero]

theorem maxrad_zeroFlow (h w : ℕ) (hh : 0 < h) (hw : 0 < w) :
    maxrad (α := ℝ) realOps (zeroFlow h w) = 0 := by
  unfold maxrad
  rw [mask_unknown_zeroFlow]
  unfold zeroFlow
  simp only [List.map_replicate]
  rw [rad_pixel_zero]
  apply foldr_max_eq (by norm_num : (-1 : ℝ) ≤ 0)
  · rw [List.mem_flatten]
    exact ⟨List.replicate w 0, List.mem_replicate.mpr ⟨hh.ne', rfl⟩,
      List.mem_replicate.mpr ⟨hw.ne', rfl⟩⟩
  · intro x hx
    rw [List.mem_flatten] at hx
    obtain ⟨r, hr, hxr⟩ := hx
    rw [(List.mem_replicate.mp hr).2] at hxr
    exact le_of_eq (List.mem_replicate.mp hxr).2

theorem flow2img_zeroFlow (h w : ℕ) (hh : 0 < h) (hw : 0 < w) :
    flow2img (α := ℝ) realOps (zeroFlow h w) =
      List.replicate h (List.replicate w ((0 : ℤ), (0 : ℤ), (0 : ℤ))) := by
  rw [flow2img_eq, maxrad_zeroFlow h w hh hw]
  unfold zeroFlow
  simp only [List.map_replicate]
  have hpx : pixel_of realOps (0 : ℝ) ((0 : ℝ), (0 : ℝ)) = (0, 0, 0) := by
    unfold pixel_of
    rw [if_neg idx_unknown_zero]
    norm_num [fdiv, compute_color_pixel_nan]
  rw [hpx]

/-- Fidelity of the fdiv model: inside flow2img the divisor is maxrad, and
whenever maxrad = 0 every masked flow entry is already (0, 0), so the only
IEEE division special case the source can hit at lines 141-142 is
0 / 0 = NaN; x / 0 with x nonzero (which would give infinity, not NaN)
cannot occur. -/
theorem maxrad_eq_zero_imp (flow : List (List (ℝ × ℝ)))
    (h : maxrad realOps flow = 0) :
    ∀ row ∈ mask_unknown flow, ∀ p ∈ row, p = ((0 : ℝ), (0 : ℝ)) := by
  intro row hrow p hp
  have hmem : rad_pixel realOps p ∈
      ((mask_unknown flow).map fun r => r.map (rad_pixel realOps)).flatten := by
    rw [List.mem_flatten]
    exact ⟨row.map (rad_pixel realOps), List.mem_map.mpr ⟨row, hrow, rfl⟩,
      List.mem_map.mpr ⟨p, hp, rfl⟩⟩
  have hle : rad_pixel realOps p ≤ maxrad realOps flow :=
    le_foldr_max _ hmem
  rw [h] at hle
  have h0 : Real.sqrt (p.1 ^ 2 + p.2 ^ 2) ≤ 0 := hle
  have harg : p.1 ^ 2 + p.2 ^ 2 ≤ 0 := by
    by_contra hc
    push_neg at hc
    have := Real.sqrt_pos.mpr hc
    linarith
  have h1 : p.1 ^ 2 = 0 :=
    le_antisymm (by nlinarith [sq_nonneg p.2]) (sq_nonneg p.1)
  have h2 : p.2 ^ 2 = 0 :=
    le_antisymm (by nlinarith [sq_nonneg p.1]) (sq_nonneg p.2)
  have hp1 : p.1 = 0 := (pow_eq_zero_iff (by norm_num : 2 ≠ 0)).mp h1
  have hp2 : p.2 = 0 := (pow_eq_zero_iff (by norm_num : 2 ≠ 0)).mp h2
  exact Prod.ext hp1 hp2

end RealHelpers

section ClaimTheorems

/-- C2 corrected: an all-zero flow field does NOT encode to a white image.
maxrad = max(-1, 0) = 0, so the normalization at lines 141-142 divides by
zero and turns every pixel into NaN (0 / 0); compute_color records every
pixel in NAN_idx and its final multiplication by (1 - NAN_idx) at line 107
zeroes all three channels, so the returned image is uniformly BLACK
(0, 0, 0).  The other half of the claim does hold: no NaN reaches the
returned 8-bit image, precisely because of that masking. -/
theorem c2_zero_flow_black (h w : ℕ) (hh : 0 < h) (hw : 0 < w) :
    maxrad realOps (zeroFlow h w) = 0 ∧
    flow2img realOps (zeroFlow h w) =
      List.replicate h (List.replicate w ((0 : ℤ), (0 : ℤ), (0 : ℤ))) :=
  ⟨maxrad_zeroFlow h w hh hw, flow2img_zeroFlow h w hh hw⟩

/-- Counterexample to C2 as stated: the 1 by 1 all-zero flow field encodes
to the black pixel (0, 0, 0), not to a pixel with all channels at their
maximal value 255. -/
theorem c2_counterexample :
    flow2img realOps [[((0 : ℝ), (0 : ℝ))]] =
      [[((0 : ℤ), (0 : ℤ), (0 : ℤ))]] ∧
    ((0 : ℤ), (0 : ℤ), (0 : ℤ)) ≠ ((255 : ℤ), (255 : ℤ), (255 : ℤ)) := by
  constructor
  · have hz := flow2img_zeroFlow 1 1 (by norm_num) (by norm_num)
    simpa [zeroFlow] using hz
  · decide

/-- Witness for c2_zero_flow_black at h = w = 1. -/
theorem c2_witness :
    maxrad realOps (zeroFlow 1 1) = 0 ∧
    flow2img realOps (zeroFlow 1 1) =
      List.replicate 1 (List.replicate 1 ((0 : ℤ), (0 : ℤ), (0 : ℤ))) :=
  c2_zero_flow_black 1 1 (by decide) (by decide)

/-- C5 corrected: the encoder is deterministic (equal inputs give equal
outputs), but it does not leave the caller's input array unchanged in
general: line 127 zeroes the unknown-flow entries of the caller's array in
place through the numpy views u and v of lines 120-121.  When no entry
magnitude exceeds the 1e7 sentinel, the input is left unchanged. -/
theorem c5_pure_unless_unknown (flow flow2 : List (List (ℝ × ℝ)))
    (h : ∀ row ∈ flow, ∀ p ∈ row, ¬ idx_unknown p) (heq : flow2 = flow) :
    flow_data_after flow = flow ∧
    flow2img realOps flow2 = flow2img realOps flow := by
  constructor
  · unfold flow_data_after
    exact mask_unknown_id flow h
  · rw [heq]

/-- Counterexample to C5 as stated: an input whose single entry has
u = 2e7 comes back zeroed, so the call mutates the caller's array. -/
theorem c5_counterexample :
    flow_data_after [[((2 * 10 ^ 7 : ℝ), 0)]] = [[((0 : ℝ), (0 : ℝ))]] ∧
    flow_data_after [[((2 * 10 ^ 7 : ℝ), 0)]] ≠ [[((2 * 10 ^ 7 : ℝ), 0)]] := by
  have hu : idx_unknown ((2 * 10 ^ 7 : ℝ), (0 : ℝ)) := by
    unfold idx_unknown UNKNOW_FLOW_THRESHOLD
    left
    rw [abs_of_pos (by norm_num)]
    norm_num
  have h1 : flow_data_after [[((2 * 10 ^ 7 : ℝ), 0)]] =
      [[((0 : ℝ), (0 : ℝ))]] := by
    unfold flow_data_after mask_unknown
    simp [hu]
  refine ⟨h1, ?_⟩
  rw [h1]
  intro hc
  rw [List.cons.injEq, List.cons.injEq] at hc
  have := hc.1.1
  rw [Prod.mk.injEq] at this
  have h2 := this.1
  norm_num at h2

/-- Witness for c5_pure_unless_unknown on a small in-range flow field. -/
theorem c5_witness :
    flow_data_after [[((1 : ℝ), 2)]] = [[((1 : ℝ), 2)]] ∧
    flow2img realOps [[((1 : ℝ), 2)]] = flow2img realOps [[((1 : ℝ), 2)]] :=
  c5_pure_unless_unknown [[((1 : ℝ), 2)]] [[((1 : ℝ), 2)]]
    (by
      intro row hrow p hp
      rw [List.mem_singleton] at hrow
      subst hrow
      rw [List.mem_singleton] at hp
      subst hp
      unfold idx_unknown UNKNOW_FLOW_THRESHOLD
      push_neg
      constructor
      · rw [abs_of_pos (by norm_num)]
        norm_num
      · rw [abs_of_pos (by norm_num)]
        norm_num)
    rfl

/-- C6: a pixel whose u or v magnitude exceeds the 1e7 sentinel produces
the output color (0, 0, 0) regardless of the other channel (lines 146-147),
and contributes radius 0 to the maxrad normalization because line 127
zeroes it before the radii are computed. -/
theorem c6_unknown_pixel_black (flow : List (List (ℝ × ℝ))) (i j : ℕ)
    (hi : i < flow.length) (hj : j < (flow.getD i []).length)
    (hu : idx_unknown ((flow.getD i []).getD j ((0 : ℝ), (0 : ℝ)))) :
    ((flow2img realOps flow).getD i []).getD j
      ((0 : ℤ), (0 : ℤ), (0 : ℤ)) = (0, 0, 0) ∧
    rad_pixel realOps
      (((mask_unknown flow).getD i []).getD j ((0 : ℝ), (0 : ℝ))) = 0 := by
  have hj2 : j < flow[i].length := by
    rwa [List.getD_eq_getElem flow [] hi] at hj
  have hu2 : idx_unknown flow[i][j] := by
    rwa [List.getD_eq_getElem flow [] hi,
      List.getD_eq_getElem _ _ hj2] at hu
  constructor
  · rw [flow2img_eq]
    have hrow : (flow.map fun row =>
        row.map (pixel_of realOps (maxrad realOps flow))).getD i [] =
        flow[i].map (pixel_of realOps (maxrad realOps flow)) := by
      rw [List.getD_eq_getElem _ _ (by simpa using hi)]
      exact List.getElem_map _
    rw [hrow, List.getD_eq_getElem _ _ (by simpa using hj2),
      List.getElem_map]
    unfold pixel_of
    rw [if_pos hu2]
  · unfold mask_unknown
    have hrow : (flow.map fun row =>
        row.map fun p =>
          if idx_unknown p then ((0 : ℝ), (0 : ℝ)) else p).getD i [] =
        flow[i].map fun p =>
          if idx_unknown p then ((0 : ℝ), (0 : ℝ)) else p := by
      rw [List.getD_eq_getElem _ _ (by simpa using hi)]
      exact List.getElem_map _
    rw [hrow, List.getD_eq_getElem _ _ (by simpa using hj2),
      List.getElem_map, if_pos hu2]
    exact rad_pixel_zero

/-- Witness for c6_unknown_pixel_black: a single pixel with u = 2e7 and
v = 5. -/
theorem c6_witness :
    ((flow2img realOps [[((2 * 10 ^ 7 : ℝ), 5)]]).getD 0 []).getD 0
      ((0 : ℤ), (0 : ℤ), (0 : ℤ)) = (0, 0, 0) ∧
    rad_pixel realOps
      (((mask_unknown [[((2 * 10 ^ 7 : ℝ), 5)]]).getD 0 []).getD 0
        ((0 : ℝ), (0 : ℝ))) = 0 :=
  c6_unknown_pixel_black [[((2 * 10 ^ 7 : ℝ), 5)]] 0 0 (by simp) (by simp)
    (by
      show idx_unknown ((2 * 10 ^ 7 : ℝ), (5 : ℝ))
      unfold idx_unknown UNKNOW_FLOW_THRESHOLD
      left
      rw [abs_of_pos (by norm_num)]
      norm_num)

end ClaimTheorems

end FlowVis
